import Mathlib

/-!
Verification of `src/agent.py` (job-agent-science-data), a single-file batch
pipeline: load config → load seen set → for each source fetch and extract
items → dedupe against the seen set → score → collect hits → persist the
seen set → report.

Shallow embedding conventions:
* Python dicts with possibly-absent keys become structures with `Option`
  fields; `d.get(k, default)` becomes `Option.getD`.
* Python `float` scores become `ℚ` (all arithmetic in the scorer is sums of
  the literals 0.05 and 0.30, and the claims under scrutiny depend only on
  counts of matched keywords, so exact arithmetic is a faithful model).
* The Python `set` of seen links becomes `Finset String`.
* Network fetching and markup parsing are opaque in the spec; the fetchers
  are parameters of the pipeline (a function from url to either a failure,
  modelling a raised exception, or an extracted item list).  The pure
  post-parse extraction logic of `fetch_html_links` is embedded explicitly
  over a list of parsed anchors.
-/

namespace Agent

/-- Python substring test on character lists: `hasPref n h` is
`h.startswith(n)` (used to build `in`). -/
def hasPref : List Char → List Char → Bool
  | [], _ => true
  | _ :: _, [] => false
  | c :: cs, d :: ds => c == d && hasPref cs ds

/-- Python `needle in hay` on character lists: some suffix of `hay` starts
with `needle`. -/
def hasSub (needle : List Char) : List Char → Bool
  | [] => hasPref needle []
  | d :: ds => hasPref needle (d :: ds) || hasSub needle ds

/-- Python `needle in hay` for strings (substring containment). -/
def strIn (needle hay : String) : Bool :=
  hasSub needle.data hay.data

/-- Python `s.lower()`: lower-case every character. -/
def pyLower (s : String) : String :=
  ⟨s.data.map Char.toLower⟩

/-- Python `s.strip()`: drop leading and trailing whitespace. -/
def pyStrip (s : String) : String :=
  ⟨((s.data.dropWhile Char.isWhitespace).reverse.dropWhile Char.isWhitespace).reverse⟩

/-- Python `s.startswith(pre)`. -/
def pyStartsWith (s pre : String) : Bool :=
  hasPref pre.data s.data

/-- An extracted item / job posting: a Python dict whose recognized keys are
`title`, `link`, `description`, any of which may be absent
(`job.get('title','')` etc. in the source). -/
structure Job where
  title : Option String
  link : Option String
  description : Option String
  deriving DecidableEq, Repr

/-- The user profile dict (`profile.yaml`): recognized keys
`skills_keywords`, `exclude_keywords`, `score_threshold`, each possibly
absent. -/
structure Profile where
  skills_keywords : Option (List String)
  exclude_keywords : Option (List String)
  score_threshold : Option ℚ
  deriving DecidableEq, Repr

/-- Scoring: `score_job(job, profile)` from `src/agent.py`:
search text is `f"{job.get('title','')} {job.get('description','')}".lower()`;
`+0.05` per skills keyword whose lowercase form occurs in the text,
`-0.30` per exclude keyword found, then the final value is clipped into
`[0, 1]` by the two trailing `if` statements. -/
def score_job (job : Job) (profile : Profile) : ℚ :=
  let text := pyLower (job.title.getD "" ++ " " ++ job.description.getD "")
  let score : ℚ := 0
  let score := (profile.skills_keywords.getD []).foldl
    (fun s kw => if strIn (pyLower kw) text then s + 0.05 else s) score
  let score := (profile.exclude_keywords.getD []).foldl
    (fun s kw => if strIn (pyLower kw) text then s - 0.30 else s) score
  let score := if score < 0 then (0 : ℚ) else score
  let score := if score > 1 then (1 : ℚ) else score
  score

/-- Loading: `load_seen()` reads a JSON list of links and builds a Python set from
it; the on-disk list is the argument here (an absent file is the empty
list). -/
def load_seen (disk : List String) : Finset String :=
  disk.toFinset

/-- Saving: `save_seen(seen)` serializes `sorted(list(seen))`: the set's elements
in increasing lexicographic string order. -/
def save_seen (seen : Finset String) : List String :=
  seen.sort (· ≤ ·)

/-- A parsed hyperlink element of an HTML page, as delivered by the markup
parser: its visible text (already extracted with whitespace handling of
`get_text(strip=True)` still to apply, so we keep the raw text and trim it
where the source does) and its `href` attribute, absent when the element has
none (`find_all("a", href=True)` keeps only elements where it is present). -/
structure Anchor where
  text : String
  href : Option String
  deriving DecidableEq, Repr

/-- The pure extraction part of `fetch_html_links` (the network fetch and
the markup parse are opaque; `anchors` is the parsed page's list of
hyperlink elements in document order).  For each anchor with an `href`
attribute: `title = a.get_text(strip=True)`, `link = a["href"].strip()`,
and the item `{title, link, description: ""}` is kept when `title` is
non-empty and `link.startswith("http")`. -/
def fetch_html_links (anchors : List Anchor) : List Job :=
  anchors.foldl
    (fun items a =>
      match a.href with
      | none => items
      | some h =>
        let title := pyStrip a.text
        let link := pyStrip h
        if title ≠ "" ∧ pyStartsWith link "http" then
          items ++ [⟨some title, some link, some ""⟩]
        else items)
    []

/-- A hit: the tuple `(score, job, src_name)` appended to `new_hits`. -/
structure Hit where
  score : ℚ
  job : Job
  srcName : String
  deriving DecidableEq, Repr

/-- The orchestrator's mutable state during a run: the in-memory seen set
and the hit list.  `scored` is a ghost trace with no influence on the rest
of the state: it records, in order, the stripped link of every item for
which the loop body actually reached the `score_job` call (the two `skip`
branches do not extend it). -/
structure RunState where
  seen : Finset String
  hits : List Hit
  scored : List String
  deriving DecidableEq

/-- The stripped dedupe key of a job: `job.get("link", "").strip()`. -/
def linkKey (job : Job) : String :=
  pyStrip (job.link.getD "")

/-- One iteration of the inner `for job in jobs` loop of `main`:
skip when the stripped link is empty; skip when it is already in `seen`;
otherwise score the job, append `(score, job, src_name)` to the hit list
when `score >= float(profile.get("score_threshold", 0.75))`, and add the
link to `seen` unconditionally. -/
def processJob (profile : Profile) (srcName : String) (st : RunState)
    (job : Job) : RunState :=
  let link := linkKey job
  if link = "" then st
  else if link ∈ st.seen then st
  else
    let score := score_job job profile
    let threshold := profile.score_threshold.getD 0.75
    let hits :=
      if score ≥ threshold then st.hits ++ [⟨score, job, srcName⟩]
      else st.hits
    { seen := insert link st.seen, hits := hits,
      scored := st.scored ++ [link] }

/-- One entry of `sources.yaml`: recognized keys `name`, `type`, `url`,
each possibly absent. -/
structure SrcCfg where
  name : Option String
  ty : Option String
  url : Option String
  deriving DecidableEq, Repr

/-- Python truthiness of `src.get(...)` for a string-valued key:
`not x` holds when the key is absent or its value is the empty string. -/
def falsy : Option String → Bool
  | none => true
  | some s => s = ""

/-- The opaque fetch-and-extract capabilities: for a given url either the
extracted item list or a failure (a raised exception caught by the
orchestrator's `try`/`except`). -/
structure FetchEnv where
  rss : String → Except Unit (List Job)
  html : String → Except Unit (List Job)

/-- The item lists `main` will iterate over for one source entry: `none`
when the source is skipped (missing/empty `type` or `url`, unknown `type`,
or fetch failure), otherwise the extracted jobs. -/
def jobsOf (env : FetchEnv) (src : SrcCfg) : Option (List Job) :=
  if falsy src.ty || falsy src.url then none
  else
    let ty := src.ty.getD ""
    let url := src.url.getD ""
    if ty = "rss" then (env.rss url).toOption
    else if ty = "html" then (env.html url).toOption
    else none

/-- One iteration of the outer `for src in sources` loop of `main`:
`src_name = src.get("name", "Unknown source")`; a skipped source leaves the
state unchanged (`continue`), otherwise the inner loop runs over the
extracted jobs. -/
def processSource (profile : Profile) (env : FetchEnv) (st : RunState)
    (src : SrcCfg) : RunState :=
  match jobsOf env src with
  | none => st
  | some jobs => jobs.foldl (processJob profile (src.name.getD "Unknown source")) st

/-- The whole of `main` as a function of its inputs: the profile, the
source list, the fetch environment and the on-disk seen list.  Returns the
final run state; the list written back by `save_seen` is
`save_seen (runPipeline ...).seen`. -/
def runPipeline (profile : Profile) (env : FetchEnv) (sources : List SrcCfg)
    (disk : List String) : RunState :=
  sources.foldl (processSource profile env)
    { seen := load_seen disk, hits := [], scored := [] }

/-- The running score of `score_job` just before the two clipping `if`
statements: the two keyword folds over the same search text. -/
def rawScore (job : Job) (profile : Profile) : ℚ :=
  let text := pyLower (job.title.getD "" ++ " " ++ job.description.getD "")
  let score : ℚ := 0
  let score := (profile.skills_keywords.getD []).foldl
    (fun s kw => if strIn (pyLower kw) text then s + 0.05 else s) score
  (profile.exclude_keywords.getD []).foldl
    (fun s kw => if strIn (pyLower kw) text then s - 0.30 else s) score

/-- The trailing clip of `score_job`: first values below 0 become 0, then
values above 1 become 1. -/
def clipTwice (r : ℚ) : ℚ :=
  let s := if r < 0 then (0 : ℚ) else r
  if s > 1 then 1 else s

lemma score_job_eq_clip (job : Job) (p : Profile) :
    score_job job p = clipTwice (rawScore job p) := rfl

lemma clipTwice_eq (r : ℚ) : clipTwice r = max 0 (min 1 r) := by
  unfold clipTwice
  by_cases h1 : r < 0
  · simp only [h1, if_true]
    have hm : min 1 r = r := min_eq_right (by linarith)
    have : ¬ ((0 : ℚ) > 1) := by norm_num
    simp only [this, if_false, hm]
    exact (max_eq_left (by linarith)).symm
  · simp only [h1, if_false]
    by_cases h2 : r > 1
    · have hm : min 1 r = 1 := min_eq_left (by linarith)
      simp only [h2, if_true, hm]
      norm_num
    · have hm : min 1 r = r := min_eq_right (by linarith)
      simp only [h2, if_false, hm]
      exact (max_eq_right (by linarith)).symm

lemma rawScore_perm (job : Job) (p q : Profile)
    (hs : (p.skills_keywords.getD []).Perm (q.skills_keywords.getD []))
    (he : (p.exclude_keywords.getD []).Perm (q.exclude_keywords.getD [])) :
    rawScore job p = rawScore job q := by
  unfold rawScore
  dsimp only
  have hcomm1 : ∀ x ∈ (p.skills_keywords.getD []), ∀ y ∈ (p.skills_keywords.getD []),
      ∀ (z : ℚ),
      (fun s kw => if strIn (pyLower kw)
          (pyLower (job.title.getD "" ++ " " ++ job.description.getD "")) then s + 0.05 else s)
        ((fun s kw => if strIn (pyLower kw)
          (pyLower (job.title.getD "" ++ " " ++ job.description.getD "")) then s + 0.05 else s) z x) y =
      (fun s kw => if strIn (pyLower kw)
          (pyLower (job.title.getD "" ++ " " ++ job.description.getD "")) then s + 0.05 else s)
        ((fun s kw => if strIn (pyLower kw)
          (pyLower (job.title.getD "" ++ " " ++ job.description.getD "")) then s + 0.05 else s) z y) x := by
    intro x _ y _ z
    dsimp only
    split_ifs <;> ring
  have hcomm2 : ∀ x ∈ (p.exclude_keywords.getD []), ∀ y ∈ (p.exclude_keywords.getD []),
      ∀ (z : ℚ),
      (fun s kw => if strIn (pyLower kw)
          (pyLower (job.title.getD "" ++ " " ++ job.description.getD "")) then s - 0.30 else s)
        ((fun s kw => if strIn (pyLower kw)
          (pyLower (job.title.getD "" ++ " " ++ job.description.getD "")) then s - 0.30 else s) z x) y =
      (fun s kw => if strIn (pyLower kw)
          (pyLower (job.title.getD "" ++ " " ++ job.description.getD "")) then s - 0.30 else s)
        ((fun s kw => if strIn (pyLower kw)
          (pyLower (job.title.getD "" ++ " " ++ job.description.getD "")) then s - 0.30 else s) z y) x := by
    intro x _ y _ z
    dsimp only
    split_ifs <;> ring
  rw [hs.foldl_eq' hcomm1 0]
  exact he.foldl_eq' hcomm2 _

/-- C3: for every item and profile, `score_job` lands in `[0, 1]`: the
value is exactly the once-applied clip `max 0 (min 1 ·)` of the raw sum of
all `+0.05` additions and `-0.30` subtractions, so in particular it is
bounded by 0 and 1. -/
theorem score_job_clipped_range (job : Job) (p : Profile) :
    score_job job p = max 0 (min 1 (rawScore job p)) ∧
    0 ≤ score_job job p ∧ score_job job p ≤ 1 := by
  have h : score_job job p = max 0 (min 1 (rawScore job p)) := by
    rw [score_job_eq_clip, clipTwice_eq]
  refine ⟨h, ?_, ?_⟩
  · rw [h]; exact le_max_left _ _
  · rw [h]
    exact max_le (by norm_num) (min_le_left _ _)

/-- C4: the score is invariant under any permutation of the
`skills_keywords` list and of the `exclude_keywords` list. -/
theorem score_job_perm_invariant (job : Job) (p q : Profile)
    (hs : (p.skills_keywords.getD []).Perm (q.skills_keywords.getD []))
    (he : (p.exclude_keywords.getD []).Perm (q.exclude_keywords.getD [])) :
    score_job job p = score_job job q := by
  rw [score_job_eq_clip, score_job_eq_clip, rawScore_perm job p q hs he]

/-- Witness for C4 at a concrete input: reversing both keyword lists
leaves the score unchanged. -/
theorem score_job_perm_invariant_witness :
    (["a", "b"] : List String).Perm ["b", "a"] ∧
    score_job ⟨some "a b c", none, none⟩ ⟨some ["a", "b"], some ["x"], none⟩ =
      score_job ⟨some "a b c", none, none⟩ ⟨some ["b", "a"], some ["x"], none⟩ :=
  ⟨by decide,
   score_job_perm_invariant ⟨some "a b c", none, none⟩
     ⟨some ["a", "b"], some ["x"], none⟩ ⟨some ["b", "a"], some ["x"], none⟩
     (by decide) (by decide)⟩

/-- C10: the function `score_job` is total over dicts with absent keys: a missing
`title`/`description` is treated as the empty string and missing keyword
lists as empty lists, and a job and profile with no recognized keys score
exactly 0. -/
theorem score_job_total_defaults :
    score_job ⟨none, none, none⟩ ⟨none, none, none⟩ = 0 ∧
    ∀ (j : Job) (p : Profile),
      score_job j p =
        score_job ⟨some (j.title.getD ""), j.link, some (j.description.getD "")⟩
          ⟨some (p.skills_keywords.getD []), some (p.exclude_keywords.getD []),
            p.score_threshold⟩ := by
  constructor
  · decide
  · intro j p
    rfl

lemma processJob_of_skip (p : Profile) (n : String) (st : RunState) (job : Job)
    (h : linkKey job = "" ∨ linkKey job ∈ st.seen) :
    processJob p n st job = st := by
  unfold processJob
  rcases h with h | h
  · simp [h]
  · by_cases h0 : linkKey job = ""
    · simp [h0]
    · simp [h0, h]

lemma processJob_seen_mono (p : Profile) (n : String) (st : RunState) (job : Job) :
    st.seen ⊆ (processJob p n st job).seen := by
  unfold processJob
  dsimp only
  split
  · exact Finset.Subset.refl _
  · split
    · exact Finset.Subset.refl _
    · exact Finset.subset_insert _ _

lemma processJob_link_mem (p : Profile) (n : String) (st : RunState) (job : Job)
    (h : linkKey job ≠ "") :
    linkKey job ∈ (processJob p n st job).seen := by
  unfold processJob
  dsimp only
  split
  · exact absurd (by assumption) h
  · split
    · assumption
    · exact Finset.mem_insert_self _ _

lemma foldJobs_seen_mono (p : Profile) (n : String) :
    ∀ (jobs : List Job) (st : RunState),
      st.seen ⊆ (jobs.foldl (processJob p n) st).seen := by
  intro jobs
  induction jobs with
  | nil => intro st; exact Finset.Subset.refl _
  | cons j rest ih =>
    intro st
    exact (processJob_seen_mono p n st j).trans (ih (processJob p n st j))

lemma foldJobs_links_seen (p : Profile) (n : String) :
    ∀ (jobs : List Job) (st : RunState) (j : Job), j ∈ jobs →
      linkKey j = "" ∨ linkKey j ∈ (jobs.foldl (processJob p n) st).seen := by
  intro jobs
  induction jobs with
  | nil => intro st j hj; exact absurd hj (List.not_mem_nil j)
  | cons j0 rest ih =>
    intro st j hj
    rcases List.mem_cons.mp hj with rfl | hj
    · by_cases h0 : linkKey j = ""
      · exact Or.inl h0
      · refine Or.inr ?_
        exact foldJobs_seen_mono p n rest (processJob p n st j)
          (processJob_link_mem p n st j h0)
    · exact ih (processJob p n st j0) j hj

lemma foldJobs_stable (p : Profile) (n : String) :
    ∀ (jobs : List Job) (st : RunState),
      (∀ j ∈ jobs, linkKey j = "" ∨ linkKey j ∈ st.seen) →
      jobs.foldl (processJob p n) st = st := by
  intro jobs
  induction jobs with
  | nil => intro st _; rfl
  | cons j0 rest ih =>
    intro st h
    have h0 : processJob p n st j0 = st :=
      processJob_of_skip p n st j0 (h j0 (List.mem_cons_self j0 rest))
    simp only [List.foldl_cons, h0]
    exact ih st (fun j hj => h j (List.mem_cons_of_mem j0 hj))

lemma processSource_seen_mono (p : Profile) (env : FetchEnv) (st : RunState)
    (src : SrcCfg) : st.seen ⊆ (processSource p env st src).seen := by
  unfold processSource
  cases jobsOf env src with
  | none => exact Finset.Subset.refl _
  | some jobs => exact foldJobs_seen_mono p _ jobs st

lemma foldSources_seen_mono (p : Profile) (env : FetchEnv) :
    ∀ (sources : List SrcCfg) (st : RunState),
      st.seen ⊆ (sources.foldl (processSource p env) st).seen := by
  intro sources
  induction sources with
  | nil => intro st; exact Finset.Subset.refl _
  | cons s rest ih =>
    intro st
    exact (processSource_seen_mono p env st s).trans (ih (processSource p env st s))

/-- Invariant threaded through a run for a link already seen at the start:
it stays in the seen set, never appears in the score trace, and no hit's
dedupe key equals it. -/
def PreSeenInv (link : String) (st : RunState) : Prop :=
  link ∈ st.seen ∧ link ∉ st.scored ∧ ∀ h ∈ st.hits, linkKey h.job ≠ link

lemma preSeenInv_processJob (p : Profile) (n : String) (link : String)
    (st : RunState) (job : Job) (h : PreSeenInv link st) :
    PreSeenInv link (processJob p n st job) := by
  obtain ⟨hseen, hscored, hhits⟩ := h
  by_cases h0 : linkKey job = ""
  · rw [processJob_of_skip p n st job (Or.inl h0)]
    exact ⟨hseen, hscored, hhits⟩
  · by_cases h1 : linkKey job ∈ st.seen
    · rw [processJob_of_skip p n st job (Or.inr h1)]
      exact ⟨hseen, hscored, hhits⟩
    · have hne : linkKey job ≠ link := fun he => h1 (he ▸ hseen)
      unfold processJob
      simp only [h0, h1, if_false, ite_false]
      refine ⟨Finset.mem_insert_of_mem hseen, ?_, ?_⟩
      · intro hmem
        rcases List.mem_append.mp hmem with hmem | hmem
        · exact hscored hmem
        · exact hne (List.mem_singleton.mp hmem).symm
      · intro hit hmem
        split at hmem
        · rcases List.mem_append.mp hmem with hmem | hmem
          · exact hhits hit hmem
          · rw [List.mem_singleton.mp hmem]
            exact hne
        · exact hhits hit hmem

lemma preSeenInv_foldJobs (p : Profile) (n : String) (link : String) :
    ∀ (jobs : List Job) (st : RunState), PreSeenInv link st →
      PreSeenInv link (jobs.foldl (processJob p n) st) := by
  intro jobs
  induction jobs with
  | nil => intro st h; exact h
  | cons j rest ih =>
    intro st h
    exact ih (processJob p n st j) (preSeenInv_processJob p n link st j h)

lemma preSeenInv_processSource (p : Profile) (env : FetchEnv) (link : String)
    (st : RunState) (src : SrcCfg) (h : PreSeenInv link st) :
    PreSeenInv link (processSource p env st src) := by
  unfold processSource
  cases jobsOf env src with
  | none => exact h
  | some jobs => exact preSeenInv_foldJobs p _ link jobs st h

lemma preSeenInv_foldSources (p : Profile) (env : FetchEnv) (link : String) :
    ∀ (sources : List SrcCfg) (st : RunState), PreSeenInv link st →
      PreSeenInv link (sources.foldl (processSource p env) st) := by
  intro sources
  induction sources with
  | nil => intro st h; exact h
  | cons s rest ih =>
    intro st h
    exact ih (processSource p env st s) (preSeenInv_processSource p env link st s h)

/-- C1: a link already in the seen set at the start of a run is never
scored during that run (it never enters the score trace) and no hit
collected during the run carries it as dedupe key. -/
theorem preseen_never_scored_or_hit (p : Profile) (env : FetchEnv)
    (sources : List SrcCfg) (disk : List String) (link : String)
    (h : link ∈ load_seen disk) :
    link ∉ (runPipeline p env sources disk).scored ∧
    ∀ hit ∈ (runPipeline p env sources disk).hits, linkKey hit.job ≠ link := by
  have hinv : PreSeenInv link (runPipeline p env sources disk) := by
    unfold runPipeline
    refine preSeenInv_foldSources p env link sources _ ?_
    exact ⟨h, List.not_mem_nil link, fun hit hmem => absurd hmem (List.not_mem_nil hit)⟩
  exact ⟨hinv.2.1, hinv.2.2⟩

/-- Witness for C1: a one-source pipeline whose feed re-emits a link that
is already on disk; that link is neither scored nor reported. -/
theorem preseen_never_scored_or_hit_witness :
    ("https://x/1" : String) ∈ load_seen ["https://x/1"] ∧
    ("https://x/1" : String) ∉
      (runPipeline ⟨some ["python"], none, some 0.05⟩
        ⟨fun _ => .ok [⟨some "Python Developer", some "https://x/1", some ""⟩],
         fun _ => .error ()⟩
        [⟨some "S1", some "rss", some "u"⟩] ["https://x/1"]).scored ∧
    ∀ hit ∈ (runPipeline ⟨some ["python"], none, some 0.05⟩
        ⟨fun _ => .ok [⟨some "Python Developer", some "https://x/1", some ""⟩],
         fun _ => .error ()⟩
        [⟨some "S1", some "rss", some "u"⟩] ["https://x/1"]).hits,
      linkKey hit.job ≠ "https://x/1" := by
  refine ⟨by decide, ?_⟩
  exact preseen_never_scored_or_hit ⟨some ["python"], none, some 0.05⟩
    ⟨fun _ => .ok [⟨some "Python Developer", some "https://x/1", some ""⟩],
     fun _ => .error ()⟩
    [⟨some "S1", some "rss", some "u"⟩] ["https://x/1"] "https://x/1" (by decide)

/-- C2: when the per-item step runs on an item whose stripped link is
non-empty and not yet in the seen set, the link is in the seen set
afterwards — with no assumption on the computed score, so also for
sub-threshold items. -/
theorem link_added_regardless_of_score (p : Profile) (n : String)
    (st : RunState) (job : Job) (h1 : linkKey job ≠ "")
    (h2 : linkKey job ∉ st.seen) :
    linkKey job ∈ (processJob p n st job).seen :=
  processJob_link_mem p n st job h1

/-- Witness for C2: a sub-threshold item (score 0, threshold 1) still gets
its link into the seen set. -/
theorem link_added_regardless_of_score_witness :
    linkKey ⟨some "Nothing", some "https://x/9", some ""⟩ ≠ "" ∧
    linkKey ⟨some "Nothing", some "https://x/9", some ""⟩ ∉
      (RunState.mk ∅ [] []).seen ∧
    score_job ⟨some "Nothing", some "https://x/9", some ""⟩ ⟨some ["python"], none, some 1⟩ <
      (⟨some ["python"], none, some 1⟩ : Profile).score_threshold.getD 0.75 ∧
    linkKey ⟨some "Nothing", some "https://x/9", some ""⟩ ∈
      (processJob ⟨some ["python"], none, some 1⟩ "S"
        (RunState.mk ∅ [] []) ⟨some "Nothing", some "https://x/9", some ""⟩).seen :=
  ⟨by decide, by decide, by decide,
   link_added_regardless_of_score ⟨some ["python"], none, some 1⟩ "S"
     (RunState.mk ∅ [] []) ⟨some "Nothing", some "https://x/9", some ""⟩
     (by decide) (by decide)⟩

/-- C5: for an item that reaches the scoring step (non-empty, unseen
stripped link), the hit list is extended with
`(score, job, srcName)` exactly when
`score_job job p ≥ p.score_threshold.getD 0.75`, and is unchanged
otherwise. -/
theorem hit_iff_threshold (p : Profile) (n : String) (st : RunState)
    (job : Job) (h1 : linkKey job ≠ "") (h2 : linkKey job ∉ st.seen) :
    ((processJob p n st job).hits =
        st.hits ++ [⟨score_job job p, job, n⟩] ↔
      score_job job p ≥ p.score_threshold.getD 0.75) ∧
    (¬ score_job job p ≥ p.score_threshold.getD 0.75 →
      (processJob p n st job).hits = st.hits) := by
  have e : (processJob p n st job).hits =
      if score_job job p ≥ p.score_threshold.getD 0.75
      then st.hits ++ [⟨score_job job p, job, n⟩] else st.hits := by
    unfold processJob
    rw [if_neg h1, if_neg h2]
  rw [e]
  by_cases hth : score_job job p ≥ p.score_threshold.getD 0.75
  · rw [if_pos hth]
    exact ⟨⟨fun _ => hth, fun _ => rfl⟩, fun hc => absurd hth hc⟩
  · rw [if_neg hth]
    refine ⟨⟨fun he => ?_, fun he => absurd he hth⟩, fun _ => rfl⟩
    have := congrArg List.length he
    simp at this

/-- Witness for C5: an item whose score (0) meets the profile threshold
(0) is appended to the hit list as `(score, job, srcName)`. -/
theorem hit_iff_threshold_witness :
    linkKey ⟨some "Job Posting", some "https://x/1", some ""⟩ ≠ "" ∧
    linkKey ⟨some "Job Posting", some "https://x/1", some ""⟩ ∉
      (RunState.mk ∅ [] []).seen ∧
    (processJob ⟨some ["python"], some ["unpaid"], some 0⟩ "S1"
        (RunState.mk ∅ [] [])
        ⟨some "Job Posting", some "https://x/1", some ""⟩).hits =
      [] ++ [⟨score_job ⟨some "Job Posting", some "https://x/1", some ""⟩
          ⟨some ["python"], some ["unpaid"], some 0⟩,
        ⟨some "Job Posting", some "https://x/1", some ""⟩, "S1"⟩] :=
  ⟨by decide, by decide,
   ((hit_iff_threshold ⟨some ["python"], some ["unpaid"], some 0⟩ "S1"
      (RunState.mk ∅ [] []) ⟨some "Job Posting", some "https://x/1", some ""⟩
      (by decide) (by decide)).1).mpr (by decide)⟩

/-- C9: within a run the seen set only grows: the set handed to
`save_seen` at the end contains the set produced by `load_seen` at the
start, and every initially-loaded link is still in the serialized
output. -/
theorem seen_only_grows (p : Profile) (env : FetchEnv) (sources : List SrcCfg)
    (disk : List String) :
    load_seen disk ⊆ (runPipeline p env sources disk).seen ∧
    ∀ x ∈ load_seen disk, x ∈ save_seen (runPipeline p env sources disk).seen := by
  have hsub : load_seen disk ⊆ (runPipeline p env sources disk).seen := by
    unfold runPipeline
    exact foldSources_seen_mono p env sources ⟨load_seen disk, [], []⟩
  refine ⟨hsub, fun x hx => ?_⟩
  unfold save_seen
  exact (Finset.mem_sort _).mpr (hsub hx)

/-- C6: `save`/`load` round-trip: loading a saved set reproduces the set,
the serialized form is sorted, and two saves of equal sets (however the
loaded lists were ordered) produce identical output. -/
theorem seen_roundtrip_sorted (s : Finset String) (hne : s.Nonempty) :
    load_seen (save_seen s) = s ∧
    List.Sorted (· ≤ ·) (save_seen s) ∧
    ∀ (l₁ l₂ : List String), load_seen l₁ = s → load_seen l₂ = s →
      save_seen (load_seen l₁) = save_seen (load_seen l₂) := by
  refine ⟨?_, ?_, ?_⟩
  · unfold load_seen save_seen
    exact Finset.sort_toFinset _ s
  · exact Finset.sort_sorted _ s
  · intro l₁ l₂ h₁ h₂
    rw [h₁, h₂]

/-- Witness for C6 on the concrete two-element set `{"b", "a"}`. -/
theorem seen_roundtrip_sorted_witness :
    (insert "b" {"a"} : Finset String).Nonempty ∧
    load_seen (save_seen (insert "b" {"a"})) = insert "b" {"a"} :=
  ⟨⟨"a", by decide⟩,
   (seen_roundtrip_sorted (insert "b" {"a"}) ⟨"a", by decide⟩).1⟩

lemma foldSources_stable (p : Profile) (env : FetchEnv) :
    ∀ (sources : List SrcCfg) (st : RunState),
      (∀ src ∈ sources, ∀ jobs, jobsOf env src = some jobs →
        ∀ j ∈ jobs, linkKey j = "" ∨ linkKey j ∈ st.seen) →
      sources.foldl (processSource p env) st = st := by
  intro sources
  induction sources with
  | nil => intro st _; rfl
  | cons s rest ih =>
    intro st h
    have hs : processSource p env st s = st := by
      unfold processSource
      cases hj : jobsOf env s with
      | none => rfl
      | some jobs =>
        exact foldJobs_stable p _ jobs st (h s (List.mem_cons_self s rest) jobs hj)
    simp only [List.foldl_cons, hs]
    exact ih st (fun src hsrc => h src (List.mem_cons_of_mem s hsrc))

lemma cover_run (p : Profile) (env : FetchEnv) :
    ∀ (sources : List SrcCfg) (st : RunState) (src : SrcCfg),
      src ∈ sources → ∀ jobs, jobsOf env src = some jobs →
      ∀ j ∈ jobs, linkKey j = "" ∨
        linkKey j ∈ (sources.foldl (processSource p env) st).seen := by
  intro sources
  induction sources with
  | nil => intro st src hsrc; exact absurd hsrc (List.not_mem_nil src)
  | cons s rest ih =>
    intro st src hsrc jobs hj j hjj
    simp only [List.foldl_cons]
    rcases List.mem_cons.mp hsrc with rfl | hsrc
    · have h1 : linkKey j = "" ∨ linkKey j ∈ (processSource p env st src).seen := by
        unfold processSource
        rw [hj]
        exact foldJobs_links_seen p _ jobs st j hjj
      rcases h1 with h1 | h1
      · exact Or.inl h1
      · exact Or.inr (foldSources_seen_mono p env rest (processSource p env st src) h1)
    · exact ih (processSource p env st s) src hsrc jobs hj j hjj

/-- C7: running the pipeline a second time, with the same profile, sources
and fetch results, starting from the seen list persisted by the first run,
collects no hits at all. -/
theorem second_run_no_hits (p : Profile) (env : FetchEnv)
    (sources : List SrcCfg) (disk : List String) :
    (runPipeline p env sources
      (save_seen (runPipeline p env sources disk).seen)).hits = [] := by
  unfold runPipeline
  have hload :
      load_seen (save_seen
        (List.foldl (processSource p env)
          ⟨load_seen disk, [], []⟩ sources).seen) =
      (List.foldl (processSource p env) ⟨load_seen disk, [], []⟩ sources).seen := by
    unfold load_seen save_seen
    exact Finset.sort_toFinset _ _
  rw [hload]
  have hstable :
      List.foldl (processSource p env)
        ⟨(List.foldl (processSource p env) ⟨load_seen disk, [], []⟩ sources).seen,
          [], []⟩ sources =
      ⟨(List.foldl (processSource p env) ⟨load_seen disk, [], []⟩ sources).seen,
        [], []⟩ :=
    foldSources_stable p env sources _
      (fun src hsrc jobs hj j hjj =>
        cover_run p env sources ⟨load_seen disk, [], []⟩ src hsrc jobs hj j hjj)
  rw [hstable]

/-- The item produced from a single parsed anchor, when any: requires a
present `href`, non-empty stripped text, and an `http`-style absolute
target. -/
def anchorItem (a : Anchor) : Option Job :=
  match a.href with
  | none => none
  | some h =>
    if pyStrip a.text ≠ "" ∧ pyStartsWith (pyStrip h) "http" then
      some ⟨some (pyStrip a.text), some (pyStrip h), some ""⟩
    else none

lemma fetch_html_links_eq_filterMap (anchors : List Anchor) :
    fetch_html_links anchors = anchors.filterMap anchorItem := by
  suffices hgen : ∀ (l : List Anchor) (acc : List Job),
      l.foldl
        (fun items a =>
          match a.href with
          | none => items
          | some h =>
            let title := pyStrip a.text
            let link := pyStrip h
            if title ≠ "" ∧ pyStartsWith link "http" then
              items ++ [⟨some title, some link, some ""⟩]
            else items) acc = acc ++ l.filterMap anchorItem by
    have h := hgen anchors []
    unfold fetch_html_links
    rw [h]
    rfl
  intro l
  induction l with
  | nil => intro acc; simp
  | cons a rest ih =>
    intro acc
    simp only [List.foldl_cons, List.filterMap_cons]
    cases ha : a.href with
    | none =>
      rw [ih]
      simp [anchorItem, ha]
    | some h =>
      by_cases hc : pyStrip a.text ≠ "" ∧ pyStartsWith (pyStrip h) "http"
      · rw [ih]
        simp [anchorItem, ha, hc, List.append_assoc]
      · rw [ih]
        simp [anchorItem, ha, hc]

/-- C8: the HTML extraction returns exactly the hyperlink elements whose
stripped visible text is non-empty and whose stripped `href` starts with
the scheme prefix `http`, each as an item whose description is the empty
string; anchors with empty text or a relative (scheme-less) href are
excluded. -/
theorem fetch_html_links_mem (anchors : List Anchor) (it : Job) :
    it ∈ fetch_html_links anchors ↔
      ∃ a ∈ anchors, ∃ h, a.href = some h ∧ pyStrip a.text ≠ "" ∧
        pyStartsWith (pyStrip h) "http" = true ∧
        it = ⟨some (pyStrip a.text), some (pyStrip h), some ""⟩ := by
  rw [fetch_html_links_eq_filterMap, List.mem_filterMap]
  constructor
  · rintro ⟨a, ha, hsome⟩
    cases hh : a.href with
    | none => simp [anchorItem, hh] at hsome
    | some h =>
      by_cases hc : pyStrip a.text ≠ "" ∧ pyStartsWith (pyStrip h) "http"
      · simp only [anchorItem, hh] at hsome
        rw [if_pos hc] at hsome
        exact ⟨a, ha, h, hh, hc.1, hc.2, (Option.some_inj.mp hsome).symm⟩
      · simp [anchorItem, hh, hc] at hsome
  · rintro ⟨a, ha, h, hh, ht, hs, rfl⟩
    refine ⟨a, ha, ?_⟩
    simp only [anchorItem, hh]
    rw [if_pos ⟨ht, hs⟩]

end Agent
